import Mathlib

/-!
Verification development for the passive ω-automata learning core of the
`lama` repository (crates `automata` and `automata-learning`).

The embedding covers:
* ultimately periodic words and the prefix-tree successor computation of
  `automata-learning/src/sample.rs` (`Prefixes::successor`);
* the edge-list transition system of `automata/src/ts/index_ts.rs`
  (`IndexTS::add_edge`, `IndexTS::successor`);
* the right congruence grown by `automata-learning/src/passive/sprout.rs`
  (`omega_sprout`, `ConflictRelation::consistent`,
  `prefix_consistency_conflicts`).

Collaborator operations that the sprout module calls but whose code is not
part of the repository snapshot (synchronous product, reachable state pairs,
SCC decomposition, `undo_add_edge`) are modelled from the specification; each
such definition carries a doc comment starting with `Modelled from the spec`.

Machine integers (`usize`) are modelled as `Nat`; the debug-mode panic of an
underflowing `usize` subtraction is modelled as `Except.error`.
-/

set_option maxHeartbeats 1000000

/-! ## Generic fueled reachability closure

Modelled from the spec (§6): the collaborator interface
`product(tsA, tsB) -> paired structure with reachable_state_indices()`
exposes exactly the pairs reachable from the initial pair.  We realise the
reachable set as a fueled saturation and prove it sound and complete for
`Relation.ReflTransGen` of the one-step successor relation. -/

/-- One saturation step: append to `acc` all one-step successors of members
of `acc` that `acc` does not contain yet (deduplicated). -/
def satStep {α : Type} [DecidableEq α] (next : α → List α) (acc : List α) : List α :=
  acc ++ ((acc.flatMap next).filter (fun y => decide (y ∉ acc))).dedup

/-- Fueled saturation: iterate `satStep` until a fixpoint is reached or the
fuel runs out. -/
def satIter {α : Type} [DecidableEq α] (next : α → List α) : Nat → List α → List α
  | 0, acc => acc
  | n + 1, acc =>
      let acc' := satStep next acc
      if acc'.length = acc.length then acc else satIter next n acc'

/-- The one-step successor relation induced by a successor-list function. -/
def NextRel {α : Type} (next : α → List α) (x y : α) : Prop :=
  y ∈ next x

/-! ## Ultimately periodic words

Translated from `automata/src/words` (`UltimatelyPeriodicWord`): a finite
base followed by an infinitely repeated period, with modular indexing past
the base. -/

/-- An ultimately periodic word `base · recur^ω`.  The period is non-empty in
every word the library constructs. -/
structure UPWord (S : Type) where
  base : List S
  recur : List S
deriving DecidableEq, Repr

/-- Symbol at position `i`: taken from the base while `i` falls inside it,
and by modular indexing into the period afterwards. -/
def UPWord.nth {S : Type} (w : UPWord S) (i : Nat) : Option S :=
  if h : i < w.base.length then some (w.base.get ⟨i, h⟩)
  else w.recur.get? ((i - w.base.length) % w.recur.length)

/-- The word `v` is a finite head of the periodic expansion of `w`
(`UltimatelyPeriodicWord::has_prefix`). -/
def UPWord.beginsWith {S : Type} [DecidableEq S] (w : UPWord S) (v : List S) : Bool :=
  (List.range v.length).all (fun i => w.nth i == v.get? i)

/-- The first `n` symbols of the periodic expansion of `w`. -/
def UPWord.expansionHead {S : Type} (w : UPWord S) (n : Nat) : List S :=
  (List.range n).filterMap (fun i => w.nth i)

/-! ## The prefix-tree successor computation

Translated from `automata-learning/src/sample.rs`, `impl Successor for
Prefixes`: states are `Class`es (finite words, here plain `List S`). -/

/-- The words of the set whose periodic expansion starts with `v`
(`Prefixes::find_words_with_prefix`). -/
def wordsBeginningWith {S : Type} [DecidableEq S] (set : List (UPWord S)) (v : List S) :
    List (UPWord S) :=
  set.filter (fun w => w.beginsWith v)

/-- Successor of class `source` on symbol `sym` in the prefix tree of `set`
(`Prefixes::successor`).  The `usize` subtraction
`successor.length() - word.recur_length()` panics in debug builds when the
candidate is shorter than the period; the panic is modelled as
`Except.error ()`. -/
def Prefixes.successor {S : Type} [DecidableEq S] (set : List (UPWord S))
    (source : List S) (sym : S) : Except Unit (Option (List S)) :=
  let candidate := source ++ [sym]
  match wordsBeginningWith set candidate with
  | [] => .ok none
  | [w] =>
      if candidate.length < w.recur.length then .error ()
      else
        let base := candidate.take (candidate.length - w.recur.length)
        let forBase := wordsBeginningWith set base
        if forBase.length = 1 then .ok (some base)
        else if forBase.length ≠ 0 then .ok (some candidate)
        else .ok none
  | _ => .ok (some candidate)

/-- Classes reachable from the initial class ε by successful
`Prefixes.successor` steps; exactly the states that the breadth-first
materialisation of `prefix_acceptor` discovers. -/
inductive PrefReach {S : Type} [DecidableEq S] (set : List (UPWord S)) : List S → Prop
  | refl : PrefReach set []
  | step {c d : List S} {a : S} : PrefReach set c →
      Prefixes.successor set c a = .ok (some d) → PrefReach set d

/-- The successor computation as claim C8 words it: no successor when no word
matches the candidate, the candidate while several words match, and for a
unique matching word the candidate truncated by the word's period length when
exactly one word of the whole set starts with that truncation, the candidate
otherwise. -/
def specSuccessor {S : Type} [DecidableEq S] (set : List (UPWord S))
    (source : List S) (sym : S) : Option (List S) :=
  let candidate := source ++ [sym]
  match wordsBeginningWith set candidate with
  | [] => none
  | [w] =>
      let base := candidate.take (candidate.length - w.recur.length)
      if (wordsBeginningWith set base).length = 1 then some base else some candidate
  | _ => some candidate

/-- Decidable no-underflow condition at one successor call: when exactly one
word of the set extends the candidate, the candidate is at least as long as
that word's period. -/
def noUnderflowAt {S : Type} [DecidableEq S] (set : List (UPWord S))
    (source : List S) (sym : S) : Bool :=
  match wordsBeginningWith set (source ++ [sym]) with
  | [w] => decide (w.recur.length ≤ (source ++ [sym]).length)
  | _ => true

/-! ## The edge-list transition system

Translated from `automata/src/ts/index_ts.rs`.  Edges live in one vector in
insertion order; each state's edges form a linked list threaded through that
vector in insertion order, so iterating a state's edges is the same as
filtering the vector by source.  Expressions of the simple alphabet are the
symbols themselves and `matches` is equality. -/

/-- The `IndexTS` transition system: states `0 .. numStates - 1` and an
append-only edge vector `(source, expression, target)`. -/
structure IndexTS (S : Type) where
  numStates : Nat
  edges : List (Nat × S × Nat)
deriving DecidableEq, Repr

/-- Translated from `IndexTS::add_edge`: asserts that source and target
exist (modelled as `none` = panic), then appends the edge at the back of the
source's edge list. -/
def IndexTS.add_edge {S : Type} (ts : IndexTS S) (source : Nat) (expr : S) (target : Nat) :
    Option (IndexTS S) :=
  if source < ts.numStates ∧ target < ts.numStates then
    some ⟨ts.numStates, ts.edges ++ [(source, expr, target)]⟩
  else none

/-- Translated from `IndexTS::successor`: the target of the first edge from
`state` whose expression matches `symbol`, in insertion order. -/
def IndexTS.successor {S : Type} [DecidableEq S] (ts : IndexTS S) (state : Nat) (symbol : S) :
    Option Nat :=
  (ts.edges.find? (fun e => e.1 == state && e.2.1 == symbol)).map (fun e => e.2.2)

/-! ## Right congruences

Translated from `automata/src/congurence.rs` (`RightCongruence`): state 0 is
the initial state labelled by the empty class, further states are indexed in
creation order and labelled by classes.  The edge store follows the same
first-match discipline as `IndexTS`.  `undo_add_edge` (called by
`omega_sprout` but absent from the snapshot) is modelled from the spec §6:
undo of the most recently added edge. -/

/-- A right congruence under construction: labels of states `0 .. n-1` in
creation order, and the edge vector `(source, symbol, target)` in insertion
order. -/
structure RightCongruence (S : Type) where
  stateLabels : List (List S)
  edges : List (Nat × S × Nat)
deriving DecidableEq, Repr

/-- Fresh congruence: one state, index 0, labelled ε, no edges
(`RightCongruence::new`). -/
def RightCongruence.init {S : Type} : RightCongruence S :=
  ⟨[[]], []⟩

/-- Append a state with the given label, returning its index
(`Sproutable::add_state`). -/
def RightCongruence.addState {S : Type} (c : RightCongruence S) (label : List S) :
    RightCongruence S :=
  ⟨c.stateLabels ++ [label], c.edges⟩

/-- Append an edge (`Sproutable::add_edge` on the congruence). -/
def RightCongruence.addEdge {S : Type} (c : RightCongruence S) (source : Nat) (sym : S)
    (target : Nat) : RightCongruence S :=
  ⟨c.stateLabels, c.edges ++ [(source, sym, target)]⟩

/-- Modelled from the spec (§6): `undo_add_edge` removes the most recently
added edge. -/
def RightCongruence.undoAddEdge {S : Type} (c : RightCongruence S) : RightCongruence S :=
  ⟨c.stateLabels, c.edges.dropLast⟩

/-- Label of a state (`state_color`); total with default ε, the algorithm
only queries existing states. -/
def RightCongruence.stateColor {S : Type} (c : RightCongruence S) (q : Nat) : List S :=
  c.stateLabels.getD q []

/-- Deterministic successor: target of the first edge from `q` on `a` in
insertion order, as stored by the edge-list representation. -/
def RightCongruence.successor {S : Type} [DecidableEq S] (c : RightCongruence S) (q : Nat)
    (a : S) : Option Nat :=
  (c.edges.find? (fun e => e.1 == q && e.2.1 == a)).map (fun e => e.2.2)

/-! ## Synchronous product and reachable pairs

Modelled from the spec (§2, §6): the synchronous product of two transition
systems has an edge on a symbol iff both components do, and exposes only the
pairs reachable from the initial pair `(0, 0)`. -/

/-- Symbols labelling edges out of state `q` of `c`. -/
def edgeSyms {S : Type} [DecidableEq S] (c : RightCongruence S) (q : Nat) : List S :=
  c.edges.filterMap (fun e => if e.1 == q then some e.2.1 else none)

/-- Modelled from the spec: one-step successors of a pair in the synchronous
product of `c` and `d` — both components must move on the same symbol. -/
def prodNext {S : Type} [DecidableEq S] (c d : RightCongruence S) (p : Nat × Nat) :
    List (Nat × Nat) :=
  (edgeSyms c p.1).filterMap (fun a =>
    match c.successor p.1 a, d.successor p.2 a with
    | some x, some y => some (x, y)
    | _, _ => none)

/-- The product's one-step relation, stated directly on the two successor
functions. -/
def ProdStep {S : Type} [DecidableEq S] (c d : RightCongruence S) (p q : Nat × Nat) : Prop :=
  ∃ a, c.successor p.1 a = some q.1 ∧ d.successor p.2 a = some q.2

/-- Every state index that can appear in a reachable pair component: the
initial state 0 or the target of some edge. -/
def targetsOf {S : Type} (c : RightCongruence S) : List Nat :=
  0 :: c.edges.map (fun e => e.2.2)

/-- Finite universe containing every pair the product exploration can
visit. -/
def pairUniverse {S : Type} (c d : RightCongruence S) : List (Nat × Nat) :=
  (targetsOf c).product (targetsOf d)

/-- Modelled from the spec: `reachable_state_indices()` of the synchronous
product — all pairs reachable from the initial pair `(0, 0)`. -/
def reachablePairs {S : Type} [DecidableEq S] (c d : RightCongruence S) : List (Nat × Nat) :=
  satIter (prodNext c d) ((pairUniverse c d).length + 1) [(0, 0)]

/-- Pairs of the product reachable from an arbitrary pair `p` (used for the
cycle test of the SCC analysis). -/
def reachFromPair {S : Type} [DecidableEq S] (c d : RightCongruence S) (p : Nat × Nat) :
    List (Nat × Nat) :=
  satIter (prodNext c d) ((pairUniverse c d).length + 1) [p]

/-! ## The conflict relation

Translated from `automata-learning/src/passive/sprout.rs`. -/

/-- `ConflictRelation`: the two prefix trees (positive side `dfas[0]`,
negative side `dfas[1]`) and the conflict set of state-index pairs. -/
structure ConflictRelation (S : Type) where
  dfaPos : RightCongruence S
  dfaNeg : RightCongruence S
  conflicts : List (Nat × Nat)

/-- Translated from `ConflictRelation::consistent`: false iff some conflict
pair `(p, n)` has `p` the tree component of a pair reachable in the product
of `cong` with the positive tree and `n` the tree component of a pair
reachable in the product of `cong` with the negative tree. -/
def ConflictRelation.consistent {S : Type} [DecidableEq S] (cr : ConflictRelation S)
    (cong : RightCongruence S) : Bool :=
  !((reachablePairs cong cr.dfaPos).any (fun l =>
      (reachablePairs cong cr.dfaNeg).any (fun r =>
        cr.conflicts.contains (l.2, r.2))))

/-- Cycle test for the conflict construction: some one-step successor of `p`
reaches `p` back, i.e. `p` lies on a non-empty cycle of the product. -/
def onCycle {S : Type} [DecidableEq S] (c d : RightCongruence S) (p : Nat × Nat) : Bool :=
  (prodNext c d p).any (fun q => decide (p ∈ reachFromPair c d q))

/-- Translated from `prefix_consistency_conflicts` (conflict-set part), with
the SCC decomposition modelled from the spec: the conflict set of the product
of the two prefix trees collects, from every non-trivial SCC, each member
pair itself.  A reachable pair lies in a non-trivial SCC exactly if it lies
on a non-empty cycle, which is what `onCycle` decides. -/
def conflictPairs {S : Type} [DecidableEq S] (c d : RightCongruence S) : List (Nat × Nat) :=
  (reachablePairs c d).filter (onCycle c d)

/-- Membership of a pair in a non-trivial SCC of the synchronous product, as
the spec words it (§8): the component has more than one state, or the pair
carries a self-loop. -/
def InNontrivialSCC {S : Type} [DecidableEq S] (c d : RightCongruence S) (p : Nat × Nat) :
    Prop :=
  (∃ q, q ≠ p ∧ Relation.ReflTransGen (ProdStep c d) p q ∧
    Relation.ReflTransGen (ProdStep c d) q p) ∨ ProdStep c d p p

/-! ## The sprout loop

Translated from `omega_sprout` in `automata-learning/src/passive/sprout.rs`.
The recursion is given fuel; `none` means the fuel ran out before the work
queue emptied. -/

/-- The inner target loop of `omega_sprout`: tentatively add the edge to each
candidate target in ascending creation order, keep the first consistent one,
undo otherwise. -/
def tryTargets {S : Type} [DecidableEq S] (cr : ConflictRelation S) (cong : RightCongruence S)
    (source : Nat) (sym : S) : List Nat → Option (RightCongruence S)
  | [] => none
  | t :: ts =>
      let cong' := cong.addEdge source sym t
      if cr.consistent cong' then some cong'
      else tryTargets cr cong'.undoAddEdge source sym ts

/-- The FIFO work loop of `omega_sprout`: resolve the front obligation by the
first consistent existing target; otherwise create a new state labelled
`source.label · sym` and enqueue all its obligations at the back.  Note that
the code adds no edge in this branch: every tentative `add_edge` of the
target loop was paired with `undo_add_edge`, and after `add_state` the loop
moves on, so the popped obligation `(source, sym)` is dropped without an
edge (the spec's §4.4 additionally demands an edge `source → newState`,
which `omega_sprout` in sprout.rs does not perform). -/
def sproutLoop {S : Type} [DecidableEq S] (alphabet : List S) (cr : ConflictRelation S) :
    Nat → RightCongruence S → List (Nat × S) → Option (RightCongruence S)
  | _, cong, [] => some cong
  | 0, _, _ :: _ => none
  | fuel + 1, cong, (source, sym) :: rest =>
      match tryTargets cr cong source sym (List.range cong.stateLabels.length) with
      | some cong' => sproutLoop alphabet cr fuel cong' rest
      | none =>
          let newState := cong.stateLabels.length
          let cong' := cong.addState (cong.stateColor source ++ [sym])
          sproutLoop alphabet cr fuel cong' (rest ++ alphabet.map (fun a => (newState, a)))

/-- Translated from `omega_sprout`: start from the one-state congruence with
the obligations `(0, a)` for every alphabet symbol in order, and run the work
loop. -/
def omega_sprout {S : Type} [DecidableEq S] (alphabet : List S) (cr : ConflictRelation S)
    (fuel : Nat) : Option (RightCongruence S) :=
  sproutLoop alphabet cr fuel RightCongruence.init (alphabet.map (fun a => (0, a)))

/-- Divergence of the sprout loop: no amount of fuel makes it return. -/
def sproutDiverges {S : Type} [DecidableEq S] (alphabet : List S) (cr : ConflictRelation S) :
    Prop :=
  ∀ fuel, omega_sprout alphabet cr fuel = none

/-- Number of edges of `c` leaving `q` on symbol `a`. -/
def edgeCount {S : Type} [DecidableEq S] (c : RightCongruence S) (q : Nat) (a : S) : Nat :=
  (c.edges.filter (fun e => e.1 == q && e.2.1 == a)).length

/-! ## Concrete instances used by witnesses and counterexamples -/

/-- The word `a^ω` over the alphabet `{0, 1}` (symbol `a` is `0`). -/
def upwA : UPWord Nat := ⟨[], [0]⟩

/-- The word `(ab)^ω` (`upw!("ab")` of the repository's own test). -/
def upwAB : UPWord Nat := ⟨[], [0, 1]⟩

/-- The singleton word set `{a^ω}`. -/
def wordsetA : List (UPWord Nat) := [upwA]

/-- The singleton word set `{(ab)^ω}`. -/
def wordsetAB : List (UPWord Nat) := [upwAB]

/-- A conflict relation whose conflict set contains the pair of the two
trees' initial states; `consistent` rejects every congruence against it. -/
def crInitialConflict : ConflictRelation Nat :=
  ⟨RightCongruence.init, RightCongruence.init, [(0, 0)]⟩

/-- A conflict relation with an empty conflict set; `consistent` accepts
every congruence against it. -/
def crNoConflicts : ConflictRelation Nat :=
  ⟨RightCongruence.init, RightCongruence.init, []⟩

/-- A conflict relation over the one-symbol alphabet whose two trees are
`ε → [a]` on the only symbol and whose conflict set is `[(1, 1)]`: the
self-loop at the initial congruence state is inconsistent, so the first
obligation takes the new-state branch. -/
def crTotalityBug : ConflictRelation Nat :=
  ⟨⟨[[], [0]], [(0, 0, 1)]⟩, ⟨[[], [0]], [(0, 0, 1)]⟩, [(1, 1)]⟩

/-! ## Correctness of the fueled reachability closure -/

/-- A list is closed under a successor-list function when it contains every
one-step successor of each of its members. -/
def ListClosed {α : Type} (next : α → List α) (l : List α) : Prop :=
  ∀ x ∈ l, ∀ y ∈ next x, y ∈ l

theorem subset_satIter {α : Type} [DecidableEq α] (next : α → List α) :
    ∀ (n : Nat) (acc : List α), acc ⊆ satIter next n acc := by
  intro n
  induction n with
  | zero => intro acc; simp [satIter]
  | succ n ih =>
      intro acc
      simp only [satIter]
      split
      · exact List.Subset.refl acc
      · exact fun x hx => ih (satStep next acc) (List.mem_append_left _ hx)

theorem satIter_sound {α : Type} [DecidableEq α] (next : α → List α) (P : α → Prop)
    (hcl : ∀ x y, P x → y ∈ next x → P y) :
    ∀ (n : Nat) (acc : List α), (∀ x ∈ acc, P x) → ∀ y ∈ satIter next n acc, P y := by
  intro n
  induction n with
  | zero => intro acc hacc; simpa [satIter] using hacc
  | succ n ih =>
      intro acc hacc
      simp only [satIter]
      split
      · exact hacc
      · refine ih (satStep next acc) ?_
        intro x hx
        rcases List.mem_append.mp hx with h | h
        · exact hacc x h
        · have hx' := List.mem_dedup.mp h
          have hx'' := List.mem_filter.mp hx'
          rcases List.mem_flatMap.mp hx''.1 with ⟨z, hz, hxz⟩
          exact hcl z x (hacc z hz) hxz

theorem satStep_fix {α : Type} [DecidableEq α] {next : α → List α} {acc : List α}
    (h : (satStep next acc).length = acc.length) : ListClosed next acc := by
  have hlen : acc.length + ((acc.flatMap next).filter
      (fun y => decide (y ∉ acc))).dedup.length = acc.length := by
    simpa [satStep, List.length_append] using h
  have hnil : ((acc.flatMap next).filter (fun y => decide (y ∉ acc))).dedup = [] :=
    List.eq_nil_of_length_eq_zero (by omega)
  have hfil : (acc.flatMap next).filter (fun y => decide (y ∉ acc)) = [] :=
    (List.dedup_eq_nil _).mp hnil
  intro x hx y hy
  by_contra hmem
  have hyin : y ∈ (acc.flatMap next).filter (fun y => decide (y ∉ acc)) :=
    List.mem_filter.mpr ⟨List.mem_flatMap.mpr ⟨x, hx, hy⟩, by simpa using hmem⟩
  rw [hfil] at hyin
  exact (List.not_mem_nil y) hyin

theorem satIter_closed {α : Type} [DecidableEq α] (next : α → List α) (U : List α)
    (hnext : ∀ x, next x ⊆ U) :
    ∀ (n : Nat) (acc : List α), acc.Nodup → acc ⊆ U → U.length + 1 ≤ n + acc.length →
    ListClosed next (satIter next n acc) := by
  intro n
  induction n with
  | zero =>
      intro acc hnd hsub hfuel
      have : acc.length ≤ U.length := (List.subperm_of_subset hnd hsub).length_le
      omega
  | succ n ih =>
      intro acc hnd hsub hfuel
      simp only [satIter]
      split
      · exact satStep_fix (by assumption)
      · rename_i hne
        have hextsub : ((acc.flatMap next).filter (fun y => decide (y ∉ acc))).dedup ⊆ U := by
          intro y hy
          have hy' := (List.mem_filter.mp (List.mem_dedup.mp hy)).1
          rcases List.mem_flatMap.mp hy' with ⟨z, _, hyz⟩
          exact hnext z hyz
        have hstepnd : (satStep next acc).Nodup := by
          refine List.Nodup.append hnd (List.nodup_dedup _) ?_
          intro y hy hy'
          have := (List.mem_filter.mp (List.mem_dedup.mp hy')).2
          simp at this
          exact this hy
        have hstepsub : satStep next acc ⊆ U := by
          intro y hy
          rcases List.mem_append.mp hy with h | h
          · exact hsub h
          · exact hextsub h
        have hgrow : acc.length + 1 ≤ (satStep next acc).length := by
          have hlen : (satStep next acc).length =
              acc.length + ((acc.flatMap next).filter
                (fun y => decide (y ∉ acc))).dedup.length := by
            simp [satStep, List.length_append]
          rcases Nat.eq_zero_or_pos ((acc.flatMap next).filter
              (fun y => decide (y ∉ acc))).dedup.length with h0 | h0
          · exact absurd (by omega : (satStep next acc).length = acc.length) hne
          · omega
        exact ih (satStep next acc) hstepnd hstepsub (by omega)

theorem mem_satIter_iff {α : Type} [DecidableEq α] (next : α → List α) (U : List α)
    (hnext : ∀ x, next x ⊆ U) (x0 : α) (hx0 : x0 ∈ U) (y : α) :
    y ∈ satIter next (U.length + 1) [x0] ↔ Relation.ReflTransGen (NextRel next) x0 y := by
  constructor
  · refine satIter_sound next (fun z => Relation.ReflTransGen (NextRel next) x0 z) ?_ _ _ ?_ y
    · exact fun a b hab hb => Relation.ReflTransGen.tail hab hb
    · intro x hx
      have : x = x0 := by simpa using hx
      exact this ▸ Relation.ReflTransGen.refl
  · intro h
    have hclosed : ListClosed next (satIter next (U.length + 1) [x0]) := by
      refine satIter_closed next U hnext _ _ (List.nodup_singleton x0) ?_ (by simp)
      intro z hz
      have : z = x0 := by simpa using hz
      exact this ▸ hx0
    induction h with
    | refl => exact subset_satIter next _ [x0] (by simp)
    | tail hab hb ih => exact hclosed _ ih _ hb

/-! ## Product reachability lemmas -/

theorem successor_target_mem {S : Type} [DecidableEq S] {c : RightCongruence S} {q x : Nat}
    {a : S} (h : c.successor q a = some x) : x ∈ targetsOf c := by
  rcases Option.map_eq_some'.mp h with ⟨e, he, hx⟩
  exact List.mem_cons_of_mem 0 (hx ▸ List.mem_map_of_mem _ (List.mem_of_find?_eq_some he))

theorem mem_prodNext {S : Type} [DecidableEq S] (c d : RightCongruence S) (p q : Nat × Nat) :
    q ∈ prodNext c d p ↔ ProdStep c d p q := by
  constructor
  · intro h
    rcases List.mem_filterMap.mp h with ⟨a, _, ha⟩
    refine ⟨a, ?_⟩
    cases hc : c.successor p.1 a with
    | none => rw [hc] at ha; exact absurd ha (by simp)
    | some x =>
        cases hd : d.successor p.2 a with
        | none => rw [hc, hd] at ha; exact absurd ha (by simp)
        | some y =>
            rw [hc, hd] at ha
            have : (x, y) = q := by simpa using ha
            subst this
            exact ⟨by simpa using hc, by simpa using hd⟩
  · rintro ⟨a, hc, hd⟩
    rcases Option.map_eq_some'.mp hc with ⟨e, he, hx⟩
    have hpred := List.find?_some he
    have hmem := List.mem_of_find?_eq_some he
    have hasym : a ∈ edgeSyms c p.1 := by
      refine List.mem_filterMap.mpr ⟨e, hmem, ?_⟩
      have h1 : (e.1 == p.1) = true := by
        cases hb : (e.1 == p.1) <;> simp [hb] at hpred ⊢
      have h2 : e.2.1 = a := by
        cases hb : (e.1 == p.1) with
        | false => simp [hb] at hpred
        | true => simpa [hb] using hpred
      simp [h1, h2]
    refine List.mem_filterMap.mpr ⟨a, hasym, ?_⟩
    rw [hc, hd]

theorem prodNext_subset {S : Type} [DecidableEq S] (c d : RightCongruence S) (p : Nat × Nat) :
    prodNext c d p ⊆ pairUniverse c d := by
  intro q hq
  rcases (mem_prodNext c d p q).mp hq with ⟨a, hc, hd⟩
  have h1 : q.1 ∈ targetsOf c := successor_target_mem hc
  have h2 : q.2 ∈ targetsOf d := successor_target_mem hd
  have : (q.1, q.2) ∈ (targetsOf c).product (targetsOf d) := by
    simpa using List.mem_product.mpr ⟨h1, h2⟩
  simpa [pairUniverse] using this

theorem rtg_nextRel_iff_prodStep {S : Type} [DecidableEq S] (c d : RightCongruence S)
    (p q : Nat × Nat) :
    Relation.ReflTransGen (NextRel (prodNext c d)) p q ↔
      Relation.ReflTransGen (ProdStep c d) p q := by
  constructor
  · exact Relation.ReflTransGen.mono (fun a b hab => (mem_prodNext c d a b).mp hab)
  · exact Relation.ReflTransGen.mono (fun a b hab => (mem_prodNext c d a b).mpr hab)

theorem mem_reachablePairs {S : Type} [DecidableEq S] (c d : RightCongruence S)
    (p : Nat × Nat) :
    p ∈ reachablePairs c d ↔ Relation.ReflTransGen (ProdStep c d) (0, 0) p := by
  rw [reachablePairs, mem_satIter_iff (prodNext c d) (pairUniverse c d)
    (prodNext_subset c d) (0, 0) ?_ p]
  · exact rtg_nextRel_iff_prodStep c d (0, 0) p
  · have : ((0 : Nat), (0 : Nat)) ∈ (targetsOf c).product (targetsOf d) :=
      List.mem_product.mpr ⟨List.mem_cons_self _ _, List.mem_cons_self _ _⟩
    simpa [pairUniverse] using this

theorem mem_reachFromPair {S : Type} [DecidableEq S] (c d : RightCongruence S)
    {p : Nat × Nat} (hp : p ∈ pairUniverse c d) (q : Nat × Nat) :
    q ∈ reachFromPair c d p ↔ Relation.ReflTransGen (ProdStep c d) p q := by
  rw [reachFromPair, mem_satIter_iff (prodNext c d) (pairUniverse c d)
    (prodNext_subset c d) p hp q]
  exact rtg_nextRel_iff_prodStep c d p q

/-- C2: `ConflictRelation::consistent(cong)` returns false if and only if
some conflict pair `(p, n)` has `p` the positive-tree component of a pair
reachable from the initial pair in the product of `cong` with the positive
prefix tree, and `n` the negative-tree component of a pair reachable in the
product of `cong` with the negative prefix tree; otherwise it returns
true. -/
theorem consistent_false_iff_conflict_reachable {S : Type} [DecidableEq S]
    (cr : ConflictRelation S) (cong : RightCongruence S) :
    cr.consistent cong = false ↔
      ∃ pn ∈ cr.conflicts,
        (∃ q, Relation.ReflTransGen (ProdStep cong cr.dfaPos) (0, 0) (q, pn.1)) ∧
        (∃ q, Relation.ReflTransGen (ProdStep cong cr.dfaNeg) (0, 0) (q, pn.2)) := by
  constructor
  · intro h
    have h' : (reachablePairs cong cr.dfaPos).any (fun l =>
        (reachablePairs cong cr.dfaNeg).any (fun r =>
          cr.conflicts.contains (l.2, r.2))) = true := by
      simpa [ConflictRelation.consistent] using h
    rcases List.any_eq_true.mp h' with ⟨l, hl, hl'⟩
    rcases List.any_eq_true.mp hl' with ⟨r, hr, hr'⟩
    refine ⟨(l.2, r.2), by simpa using hr', ⟨l.1, ?_⟩, ⟨r.1, ?_⟩⟩
    · exact (mem_reachablePairs cong cr.dfaPos l).mp hl
    · exact (mem_reachablePairs cong cr.dfaNeg r).mp hr
  · rintro ⟨pn, hpn, ⟨ql, hl⟩, ⟨qr, hr⟩⟩
    have h' : (reachablePairs cong cr.dfaPos).any (fun l =>
        (reachablePairs cong cr.dfaNeg).any (fun r =>
          cr.conflicts.contains (l.2, r.2))) = true := by
      refine List.any_eq_true.mpr ⟨(ql, pn.1),
        (mem_reachablePairs cong cr.dfaPos _).mpr hl, ?_⟩
      refine List.any_eq_true.mpr ⟨(qr, pn.2),
        (mem_reachablePairs cong cr.dfaNeg _).mpr hr, ?_⟩
      simpa using hpn
    simp only [ConflictRelation.consistent, h', Bool.not_true]

/-! ## Conflict-set characterisation (C5) -/

theorem onCycle_iff {S : Type} [DecidableEq S] (c d : RightCongruence S) (p : Nat × Nat) :
    onCycle c d p = true ↔
      ∃ q, ProdStep c d p q ∧ Relation.ReflTransGen (ProdStep c d) q p := by
  unfold onCycle
  rw [List.any_eq_true]
  constructor
  · rintro ⟨q, hq, hq'⟩
    have hq2 : p ∈ reachFromPair c d q := of_decide_eq_true hq'
    exact ⟨q, (mem_prodNext c d p q).mp hq,
      (mem_reachFromPair c d (prodNext_subset c d p hq) p).mp hq2⟩
  · rintro ⟨q, hstep, hrt⟩
    have hqmem : q ∈ prodNext c d p := (mem_prodNext c d p q).mpr hstep
    exact ⟨q, hqmem,
      decide_eq_true ((mem_reachFromPair c d (prodNext_subset c d p hqmem) p).mpr hrt)⟩

theorem onCycle_iff_nontrivial {S : Type} [DecidableEq S] (c d : RightCongruence S)
    (p : Nat × Nat) : onCycle c d p = true ↔ InNontrivialSCC c d p := by
  rw [onCycle_iff]
  constructor
  · rintro ⟨q, hstep, hrt⟩
    by_cases hqp : q = p
    · exact Or.inr (hqp ▸ hstep)
    · exact Or.inl ⟨q, hqp, Relation.ReflTransGen.single hstep, hrt⟩
  · rintro (⟨q, hne, hpq, hqp⟩ | hself)
    · rcases Relation.ReflTransGen.cases_head hpq with h | ⟨r, hr, hrq⟩
      · exact absurd h.symm hne
      · exact ⟨r, hr, hrq.trans hqp⟩
    · exact ⟨p, hself, Relation.ReflTransGen.refl⟩

/-- C5: the conflict set built over the product of the positive and negative
prefix trees contains exactly the pairs `(p, n)` that are reachable states of
the product lying in some non-trivial strongly connected component; each such
state contributes its own pair only, and no pair comes from a trivial
component. -/
theorem conflictPairs_mem_iff_nontrivial_scc {S : Type} [DecidableEq S]
    (c d : RightCongruence S) (p : Nat × Nat) :
    p ∈ conflictPairs c d ↔
      Relation.ReflTransGen (ProdStep c d) (0, 0) p ∧ InNontrivialSCC c d p := by
  unfold conflictPairs
  rw [List.mem_filter, mem_reachablePairs, onCycle_iff_nontrivial]

/-! ## Sprout loop: basic lemmas -/

theorem undoAddEdge_addEdge {S : Type} (c : RightCongruence S) (q : Nat) (a : S) (t : Nat) :
    (c.addEdge q a t).undoAddEdge = c := by
  simp [RightCongruence.addEdge, RightCongruence.undoAddEdge]

theorem tryTargets_some {S : Type} [DecidableEq S] (cr : ConflictRelation S)
    (cong : RightCongruence S) (source : Nat) (sym : S) :
    ∀ (ts : List Nat) (c' : RightCongruence S), tryTargets cr cong source sym ts = some c' →
      (∃ t ∈ ts, c' = cong.addEdge source sym t) ∧ cr.consistent c' = true := by
  intro ts
  induction ts with
  | nil => intro c' h; simp [tryTargets] at h
  | cons t ts ih =>
      intro c' h
      rw [tryTargets] at h
      by_cases hc : cr.consistent (cong.addEdge source sym t) = true
      · rw [if_pos hc] at h
        have hc' : c' = cong.addEdge source sym t := by
          exact (Option.some.injEq _ _ ▸ h).symm
        exact ⟨⟨t, List.mem_cons_self t ts, hc'⟩, hc' ▸ hc⟩
      · rw [if_neg hc, undoAddEdge_addEdge] at h
        rcases ih c' h with ⟨⟨t', ht', hc'⟩, hcons⟩
        exact ⟨⟨t', List.mem_cons_of_mem t ht', hc'⟩, hcons⟩

theorem tryTargets_none_of_inconsistent {S : Type} [DecidableEq S] (cr : ConflictRelation S)
    (hall : ∀ c : RightCongruence S, cr.consistent c = false) (source : Nat) (sym : S) :
    ∀ (ts : List Nat) (cong : RightCongruence S), tryTargets cr cong source sym ts = none := by
  intro ts
  induction ts with
  | nil => intro cong; rfl
  | cons t ts ih =>
      intro cong
      rw [tryTargets, if_neg (by simp [hall]), undoAddEdge_addEdge]
      exact ih cong

theorem consistent_of_conflicts_nil {S : Type} [DecidableEq S] (cr : ConflictRelation S)
    (h : cr.conflicts = []) (cong : RightCongruence S) : cr.consistent cong = true := by
  simp [ConflictRelation.consistent, h]

/-! ## C6: consistency of a returned congruence -/

theorem sproutLoop_result_consistent {S : Type} [DecidableEq S] (alphabet : List S)
    (cr : ConflictRelation S) (hne : alphabet ≠ []) :
    ∀ (fuel : Nat) (cong : RightCongruence S) (queue : List (Nat × S))
      (res : RightCongruence S),
      sproutLoop alphabet cr fuel cong queue = some res →
      (queue = [] ∧ res = cong) ∨ cr.consistent res = true := by
  intro fuel
  induction fuel with
  | zero =>
      intro cong queue res h
      cases queue with
      | nil => exact Or.inl ⟨rfl, by simpa [sproutLoop] using h.symm⟩
      | cons item rest => simp [sproutLoop] at h
  | succ n ih =>
      intro cong queue res h
      cases queue with
      | nil => exact Or.inl ⟨rfl, by simpa [sproutLoop] using h.symm⟩
      | cons item rest =>
          obtain ⟨source, sym⟩ := item
          rw [sproutLoop] at h
          cases htt : tryTargets cr cong source sym (List.range cong.stateLabels.length) with
          | some cong' =>
              rw [htt] at h
              rcases ih cong' rest res h with ⟨hrest, hres⟩ | hcons
              · exact Or.inr (hres ▸ (tryTargets_some cr cong source sym _ cong' htt).2)
              · exact Or.inr hcons
          | none =>
              rw [htt] at h
              rcases ih _ _ res h with ⟨hq, _⟩ | hcons
              · rcases List.append_eq_nil.mp hq with ⟨_, hmap⟩
                exact absurd (List.map_eq_nil.mp hmap) hne
              · exact Or.inr hcons

/-- C6 (amended): for every non-empty alphabet and every ConflictRelation,
any RightCongruence returned by `omega_sprout` satisfies the consistency
predicate of that ConflictRelation. -/
theorem omega_sprout_result_consistent {S : Type} [DecidableEq S] (alphabet : List S)
    (cr : ConflictRelation S) (fuel : Nat) (cong : RightCongruence S)
    (hne : alphabet ≠ []) (h : omega_sprout alphabet cr fuel = some cong) :
    cr.consistent cong = true := by
  rcases sproutLoop_result_consistent alphabet cr hne fuel RightCongruence.init
      (alphabet.map (fun a => (0, a))) cong h with ⟨hq, _⟩ | hcons
  · exact absurd (List.map_eq_nil_iff.mp hq) hne
  · exact hcons

/-- C6 counterexample: with the empty alphabet, `omega_sprout` returns the
initial one-state congruence without ever invoking the consistency check, and
against a conflict set containing the pair of initial tree states that result
is inconsistent. -/
theorem omega_sprout_inconsistent_empty_alphabet_cex :
    omega_sprout ([] : List Nat) crInitialConflict 1 = some RightCongruence.init ∧
      crInitialConflict.consistent RightCongruence.init = false := by
  constructor
  · rfl
  · decide

/-- C6 witness: a run over the one-symbol alphabet with an empty conflict set
returns a congruence, and the theorem yields its consistency. -/
theorem omega_sprout_result_consistent_witness :
    crNoConflicts.consistent (RightCongruence.mk [[]] [(0, 0, 0)]) = true :=
  omega_sprout_result_consistent [0] crNoConflicts 1 (RightCongruence.mk [[]] [(0, 0, 0)])
    (by decide) (by rfl)

/-! ## C4: termination -/

theorem consistent_crInitialConflict_false (cong : RightCongruence Nat) :
    crInitialConflict.consistent cong = false := by
  have hmemPos : ((0 : Nat), (0 : Nat)) ∈ reachablePairs cong crInitialConflict.dfaPos :=
    subset_satIter _ _ _ (List.mem_singleton.mpr rfl)
  have hmemNeg : ((0 : Nat), (0 : Nat)) ∈ reachablePairs cong crInitialConflict.dfaNeg :=
    subset_satIter _ _ _ (List.mem_singleton.mpr rfl)
  have hany : (reachablePairs cong crInitialConflict.dfaPos).any (fun l =>
      (reachablePairs cong crInitialConflict.dfaNeg).any (fun r =>
        crInitialConflict.conflicts.contains (l.2, r.2))) = true :=
    List.any_eq_true.mpr ⟨(0, 0), hmemPos,
      List.any_eq_true.mpr ⟨(0, 0), hmemNeg, by decide⟩⟩
  simp only [ConflictRelation.consistent, hany, Bool.not_true]

theorem sproutLoop_crInitialConflict_none :
    ∀ (fuel : Nat) (cong : RightCongruence Nat) (queue : List (Nat × Nat)),
      queue ≠ [] → sproutLoop [0] crInitialConflict fuel cong queue = none := by
  intro fuel
  induction fuel with
  | zero =>
      intro cong queue hq
      cases queue with
      | nil => exact absurd rfl hq
      | cons item rest => rfl
  | succ n ih =>
      intro cong queue hq
      cases queue with
      | nil => exact absurd rfl hq
      | cons item rest =>
          obtain ⟨source, sym⟩ := item
          rw [sproutLoop,
            tryTargets_none_of_inconsistent crInitialConflict consistent_crInitialConflict_false
              source sym _ cong]
          exact ih _ _ (by simp)

/-- C4 counterexample: against a conflict relation whose conflict set pairs
the two trees' initial states, every congruence is inconsistent, so the sprout
loop keeps creating states and the queue never empties: no fuel suffices. -/
theorem omega_sprout_divergence_cex : sproutDiverges [0] crInitialConflict := by
  intro fuel
  unfold omega_sprout
  exact sproutLoop_crInitialConflict_none fuel _ _ (by simp)

theorem sproutLoop_terminates_of_no_conflicts {S : Type} [DecidableEq S] (alphabet : List S)
    (cr : ConflictRelation S) (h : cr.conflicts = []) :
    ∀ (queue : List (Nat × S)) (fuel : Nat) (cong : RightCongruence S),
      queue.length ≤ fuel → cong.stateLabels ≠ [] →
      (sproutLoop alphabet cr fuel cong queue).isSome = true := by
  intro queue
  induction queue with
  | nil =>
      intro fuel cong _ _
      cases fuel <;> simp [sproutLoop]
  | cons item rest ih =>
      intro fuel cong hlen hne
      obtain ⟨source, sym⟩ := item
      cases fuel with
      | zero => simp at hlen
      | succ n =>
          obtain ⟨k, hk⟩ : ∃ k, cong.stateLabels.length = k + 1 := by
            cases hcl : cong.stateLabels with
            | nil => exact absurd hcl hne
            | cons x xs => exact ⟨xs.length, by simp⟩
          have htt : tryTargets cr cong source sym (List.range cong.stateLabels.length) =
              some (cong.addEdge source sym 0) := by
            rw [hk, List.range_succ_eq_map]
            rw [tryTargets, if_pos (consistent_of_conflicts_nil cr h _)]
          rw [sproutLoop, htt]
          exact ih n (cong.addEdge source sym 0) (by simpa using hlen) hne

/-- C4 (amended): each queue item is resolved in one loop iteration, and for
an empty conflict set the sprout loop terminates within `alphabet.length`
iterations for every alphabet; termination for every ConflictRelation fails
(see the divergence counterexample). -/
theorem omega_sprout_terminates_no_conflicts {S : Type} [DecidableEq S] (alphabet : List S)
    (cr : ConflictRelation S) (h : cr.conflicts = []) :
    (omega_sprout alphabet cr alphabet.length).isSome = true := by
  unfold omega_sprout
  exact sproutLoop_terminates_of_no_conflicts alphabet cr h _ _ _ (by simp)
    (by simp [RightCongruence.init])

/-- C4 witness: the amended termination theorem applied to the one-symbol
alphabet and an empty conflict set. -/
theorem omega_sprout_terminates_no_conflicts_witness :
    (omega_sprout [0] crNoConflicts ([0] : List Nat).length).isSome = true :=
  omega_sprout_terminates_no_conflicts [0] crNoConflicts rfl

/-! ## C3: the new-state branch of the sprout loop -/

/-- C3 (code_bug evidence): when no existing target yields a consistent
congruence for the pending `(source, sym)` obligation, the loop continues
with the new state labelled `source.label · sym` appended and the obligations
`(newState, a)` for every alphabet symbol pushed onto the back of the queue —
but with NO edge from `source` to the new state: the edge set is unchanged,
so the popped obligation is dropped without an edge, contrary to the claimed
(and specified) `add edge source → newState`. -/
theorem omega_sprout_new_state_no_edge {S : Type} [DecidableEq S] (alphabet : List S)
    (cr : ConflictRelation S) (fuel : Nat) (cong : RightCongruence S) (source : Nat) (sym : S)
    (rest : List (Nat × S))
    (h : tryTargets cr cong source sym (List.range cong.stateLabels.length) = none) :
    sproutLoop alphabet cr (fuel + 1) cong ((source, sym) :: rest) =
      sproutLoop alphabet cr fuel (cong.addState (cong.stateColor source ++ [sym]))
        (rest ++ alphabet.map (fun a => (cong.stateLabels.length, a))) ∧
      (cong.addState (cong.stateColor source ++ [sym])).edges = cong.edges := by
  refine ⟨?_, rfl⟩
  rw [sproutLoop, h]

/-- C3 witness: against the always-inconsistent conflict relation, the first
obligation of the one-symbol run takes the new-state branch: state 1 labelled
`[0]` is appended and the obligation `(1, 0)` enqueued, while the edge set
stays empty. -/
theorem omega_sprout_new_state_no_edge_witness :
    sproutLoop [0] crInitialConflict 1 RightCongruence.init [(0, 0)] =
      sproutLoop [0] crInitialConflict 0 (RightCongruence.mk [[], [0]] []) [(1, 0)] ∧
      (RightCongruence.mk ([[], [0]] : List (List Nat)) []).edges =
        RightCongruence.init.edges :=
  omega_sprout_new_state_no_edge [0] crInitialConflict 0 RightCongruence.init 0 0 []
    (by decide)

/-! ## C1: totality of the returned congruence fails in the code

Because the new-state branch adds no edge for the popped obligation, the
program can return congruences in which a state lacks an outgoing edge on an
alphabet symbol. -/

/-- C1 (code_bug evidence): on the one-symbol alphabet with prefix trees
`ε → [a]` and the conflict pair `(1, 1)`, the run returns a two-state
congruence whose only edge is the self-resolving `1 → 0`: state 0 exists and
`a` is an alphabet symbol, yet state 0 has no outgoing edge on `a` — its
obligation was dropped by the new-state branch, so the returned
RightCongruence is not total. -/
theorem omega_sprout_totality_bug :
    omega_sprout [0] crTotalityBug 2 = some (RightCongruence.mk [[], [0]] [(1, 0, 0)]) ∧
      0 < (RightCongruence.mk ([[], [0]] : List (List Nat)) [(1, 0, 0)]).stateLabels.length ∧
      (0 : Nat) ∈ [0] ∧
      edgeCount (RightCongruence.mk [[], [0]] [(1, 0, 0)]) 0 0 = 0 :=
  ⟨rfl, by decide, by decide, rfl⟩

/-! ## Prefix-tree successor: C7, C8, C9 -/

theorem beginsWith_take {S : Type} [DecidableEq S] (w : UPWord S) (v : List S) (m : Nat)
    (h : w.beginsWith v = true) : w.beginsWith (v.take m) = true := by
  rw [UPWord.beginsWith, List.all_eq_true] at h ⊢
  intro i hi
  have hi' : i < (v.take m).length := List.mem_range.mp hi
  have him : i < m := lt_of_lt_of_le hi' (by simp [List.length_take])
  have hiv : i < v.length := lt_of_lt_of_le hi' (by simp [List.length_take])
  rw [List.get?_take him]
  exact h i (List.mem_range.mpr hiv)

theorem mem_of_filterBeginsWith_singleton {S : Type} [DecidableEq S] {set : List (UPWord S)}
    {v : List S} {w : UPWord S} (h : wordsBeginningWith set v = [w]) :
    w ∈ set ∧ w.beginsWith v = true := by
  have hw : w ∈ wordsBeginningWith set v := h ▸ List.mem_singleton.mpr rfl
  exact ⟨(List.mem_filter.mp hw).1, (List.mem_filter.mp hw).2⟩

/-- C8 (amended): when the subtraction does not underflow — the unique word
matching the candidate, if any, has period length at most the candidate's
length — the successor computation realises exactly the case analysis of the
claim; when it underflows, the code panics instead (see the
counterexample). -/
theorem successor_matches_spec_no_underflow {S : Type} [DecidableEq S]
    (set : List (UPWord S)) (source : List S) (sym : S)
    (h : noUnderflowAt set source sym = true) :
    Prefixes.successor set source sym = .ok (specSuccessor set source sym) := by
  rw [Prefixes.successor, specSuccessor, noUnderflowAt] at *
  cases hw : wordsBeginningWith set (source ++ [sym]) with
  | nil => simp [hw]
  | cons w ws =>
      cases ws with
      | nil =>
          rw [hw] at h
          have hle : w.recur.length ≤ (source ++ [sym]).length := of_decide_eq_true h
          simp only [hw]
          rw [if_neg (not_lt.mpr hle)]
          have hwmem := mem_of_filterBeginsWith_singleton hw
          have hwbase : w ∈ wordsBeginningWith set
              ((source ++ [sym]).take ((source ++ [sym]).length - w.recur.length)) :=
            List.mem_filter.mpr ⟨hwmem.1, beginsWith_take w _ _ hwmem.2⟩
          by_cases h1 : (wordsBeginningWith set
              ((source ++ [sym]).take ((source ++ [sym]).length - w.recur.length))).length = 1
          · rw [if_pos h1, if_pos h1]
          · rw [if_neg h1, if_neg h1]
            rw [if_pos]
            intro h0
            rw [List.length_eq_zero] at h0
            rw [h0] at hwbase
            exact (List.not_mem_nil w) hwbase
      | cons w2 ws2 => simp [hw]

/-- C8 counterexample: on the singleton word set {(ab)^ω}, from the class ε
on symbol a, the code result is a panic while the claim's case analysis
yields the truncated class ε. -/
theorem successor_spec_mismatch_cex :
    Prefixes.successor wordsetAB [] 0 = .error () ∧
      specSuccessor wordsetAB [] 0 = some [] ∧
      Prefixes.successor wordsetAB [] 0 ≠ .ok (specSuccessor wordsetAB [] 0) :=
  ⟨rfl, rfl, fun h => Except.noConfusion h⟩

/-- C8 witness: on the word set {a^ω} no underflow occurs and the successor
of ε on a agrees with the claim's case analysis. -/
theorem successor_matches_spec_witness :
    Prefixes.successor wordsetA [] 0 = .ok (specSuccessor wordsetA [] 0) :=
  successor_matches_spec_no_underflow wordsetA [] 0 (by decide)

/-- C9: at the well-formed input with word set {(ab)^ω} (one positive word,
empty negative set), the successor of the initial class ε on symbol a hits a
candidate of length 1 while the unique matching word has period length 2, so
the `usize` truncation `candidate.length - recur_length` underflows and the
computation fails instead of returning. -/
theorem successor_underflow_at_failing_input :
    wordsBeginningWith wordsetAB ([] ++ [0]) = [upwAB] ∧
      (([] ++ [0] : List Nat)).length < upwAB.recur.length ∧
      Prefixes.successor wordsetAB [] 0 = .error () :=
  ⟨by decide, by decide, rfl⟩

theorem successor_ok_some {S : Type} [DecidableEq S] (set : List (UPWord S)) (c d : List S)
    (a : S) (h : Prefixes.successor set c a = .ok (some d)) :
    ∃ w ∈ set, w.beginsWith d = true := by
  rw [Prefixes.successor] at h
  cases hw : wordsBeginningWith set (c ++ [a]) with
  | nil =>
      simp only [hw] at h
      exact absurd h (by simp)
  | cons w ws =>
      cases ws with
      | nil =>
          simp only [hw] at h
          by_cases hlt : (c ++ [a]).length < w.recur.length
          · rw [if_pos hlt] at h
            exact absurd h (by simp)
          · rw [if_neg hlt] at h
            have hwmem := mem_of_filterBeginsWith_singleton hw
            by_cases h1 : (wordsBeginningWith set
                ((c ++ [a]).take ((c ++ [a]).length - w.recur.length))).length = 1
            · rw [if_pos h1] at h
              have hd : d = (c ++ [a]).take ((c ++ [a]).length - w.recur.length) := by
                simpa using h.symm
              exact ⟨w, hwmem.1,
                hd ▸ beginsWith_take w _ _ hwmem.2⟩
            · rw [if_neg h1] at h
              by_cases h0 : (wordsBeginningWith set
                  ((c ++ [a]).take ((c ++ [a]).length - w.recur.length))).length ≠ 0
              · rw [if_pos h0] at h
                have hd : d = c ++ [a] := by simpa using h.symm
                exact ⟨w, hwmem.1, hd ▸ hwmem.2⟩
              · rw [if_neg h0] at h
                exact absurd h (by simp)
      | cons w2 ws2 =>
          simp only [hw] at h
          have hd : d = c ++ [a] := by simpa using h.symm
          have hwmem : w ∈ wordsBeginningWith set (c ++ [a]) := hw ▸ List.mem_cons_self _ _
          exact ⟨w, (List.mem_filter.mp hwmem).1, hd ▸ (List.mem_filter.mp hwmem).2⟩

/-- C7 (amended): every class reachable from ε in the prefix tree of a word
set is ε or a finite head of the periodic expansion of some word of the set,
and no other class is reachable; the converse fails — a head of an expansion
need not be a state, since periodic folding can merge it into an earlier
one. -/
theorem pref_reach_states_sound {S : Type} [DecidableEq S] (set : List (UPWord S))
    (c : List S) (h : PrefReach set c) :
    c = [] ∨ ∃ w ∈ set, w.beginsWith c = true := by
  induction h with
  | refl => exact Or.inl rfl
  | step _ hs _ => exact Or.inr (successor_ok_some set _ _ _ hs)

/-- C7 witness: the initial class ε is reachable and the theorem applies to
it. -/
theorem pref_reach_states_sound_witness :
    ([] : List Nat) = [] ∨ ∃ w ∈ wordsetA, w.beginsWith ([] : List Nat) = true :=
  pref_reach_states_sound wordsetA [] PrefReach.refl

theorem prefReach_wordsetA_eq_nil : ∀ c, PrefReach wordsetA c → c = [] := by
  intro c h
  induction h with
  | refl => rfl
  | step hc hs ih =>
      subst ih
      rename_i a
      by_cases ha : a = 0
      · subst ha
        have heval : Prefixes.successor wordsetA [] 0 = Except.ok (some ([] : List Nat)) := rfl
        rw [heval] at hs
        simpa using hs.symm
      · have h0 : upwA.nth 0 = some 0 := rfl
        have hget : ([a] : List Nat).get? 0 = some a := rfl
        have hb : upwA.beginsWith [a] = false := by
          rw [UPWord.beginsWith]
          have hr : List.range ([a] : List Nat).length = [0] := rfl
          rw [hr]
          simp only [List.all_cons, List.all_nil, Bool.and_true, h0, hget]
          exact beq_eq_false_iff_ne.mpr (fun hsome => ha (Option.some.inj hsome).symm)
        have hbw : wordsBeginningWith wordsetA ([] ++ [a]) = [] := by
          simp [wordsBeginningWith, wordsetA, hb]
        rw [Prefixes.successor] at hs
        simp only [hbw] at hs
        exact absurd hs (by simp)

/-- C7 counterexample: for the word set {a^ω}, the head of length 1 of the
expansion of a^ω — the class [a] — is a finite head of a word of the set,
with 1 within base plus period, yet it is not a state: only ε is
reachable (the period folds back onto ε). -/
theorem pref_tree_coverage_cex :
    upwA ∈ wordsetA ∧ upwA.beginsWith (upwA.expansionHead 1) = true ∧
      1 ≤ upwA.base.length + upwA.recur.length ∧
      ¬ PrefReach wordsetA (upwA.expansionHead 1) := by
  refine ⟨by decide, by decide, by decide, fun h => ?_⟩
  exact absurd (prefReach_wordsetA_eq_nil _ h) (by decide)

/-! ## C10: the edge-list transition system appends -/

/-- C10: `IndexTS::add_edge` only appends: adding a second edge from the same
state on the same expression to a different target leaves the earlier edge in
place (the edge vector is extended at the back), and `successor` still
returns the target of the first-added matching edge. -/
theorem add_edge_appends_first_match_kept {S : Type} [DecidableEq S] (ts ts' : IndexTS S)
    (q t t' : Nat) (a : S)
    (hfirst : ts.successor q a = some t) (hne : t' ≠ t)
    (hadd : ts.add_edge q a t' = some ts') :
    ts'.edges = ts.edges ++ [(q, a, t')] ∧ ts'.successor q a = some t := by
  rw [IndexTS.add_edge] at hadd
  by_cases hok : q < ts.numStates ∧ t' < ts.numStates
  · rw [if_pos hok] at hadd
    have h1 : ts' = ⟨ts.numStates, ts.edges ++ [(q, a, t')]⟩ := by
      simpa using hadd.symm
    subst h1
    refine ⟨rfl, ?_⟩
    rw [IndexTS.successor] at hfirst ⊢
    rcases Option.map_eq_some'.mp hfirst with ⟨e, he, het⟩
    have : (ts.edges ++ [(q, a, t')]).find? (fun e => e.1 == q && e.2.1 == a) = some e := by
      rw [List.find?_append, he]
      rfl
    rw [this]
    simpa using het
  · rw [if_neg hok] at hadd
    exact absurd hadd (by simp)

/-- C10 witness: from a two-state system with one edge `0 → 0` on symbol 0,
adding `0 → 1` on the same symbol appends it and `successor 0 0` still
returns 0. -/
theorem add_edge_appends_first_match_kept_witness :
    (IndexTS.mk 2 [(0, 0, 0), (0, 0, 1)] : IndexTS Nat).edges =
        (IndexTS.mk 2 [(0, 0, 0)] : IndexTS Nat).edges ++ [(0, 0, 1)] ∧
      (IndexTS.mk 2 [(0, 0, 0), (0, 0, 1)] : IndexTS Nat).successor 0 0 = some 0 :=
  add_edge_appends_first_match_kept (IndexTS.mk 2 [(0, 0, 0)])
    (IndexTS.mk 2 [(0, 0, 0), (0, 0, 1)]) 0 0 1 0 (by decide) (by decide) (by decide)
